import Mathlib

/-!
Verification of the natural-language specification of the ModelHamiltonian
(`moha`) one-electron Hamiltonian builder, as exercised by the example
notebook `examples/rauk.ipynb`.

The repository material in scope is the notebook; the library it calls
(`HamHub` / `HamHuck`, `generate_one_body_integral`, Rauk's table, the
Wolfsberg-Helmholz approximation) is external to the visible sources, so the
definitions below are modelled from the specification's description of that
external call surface, with the printed notebook outputs fixing details the
prose leaves open (e.g. which matrix positions a user-supplied
`bond_dictionary` writes to).  Numeric values are rationals; the physical
tables the spec leaves unspecified (Rauk's per-element alpha/beta values,
ionization potentials, the distance-to-overlap map) are parameters of the
model, collected in a `Params` structure.
-/

namespace Moha

/-- Modelled from the spec: a bond order is "an integer or real number"
(third element of a connectivity tuple).  The integer/real distinction
selects the Rauk's-table or Wolfsberg-Helmholz path. -/
inductive BondOrder where
  | int (n : Int)
  | real (q : ℚ)
deriving DecidableEq

/-- Modelled from the spec: a site label names an atom (element label,
possibly of molecule form `X(n)`) together with the position of the site in
the compound, e.g. `C1` is atom `C` at position 1, `N1(2)` is atom `N(2)` at
position 1. -/
structure Site where
  atom : String
  pos : Nat
deriving DecidableEq

/-- Modelled from the spec: a connectivity tuple names two site labels, a
bond order (integer or real number), and optionally a bond-symmetry tag
("pi"/"sigma"). -/
structure Bond where
  s1 : Site
  s2 : Site
  order : BondOrder
  tag : Option String := none
deriving DecidableEq

/-- `true` exactly when the bond order is an integer. -/
def orderIsInt : BondOrder → Bool
  | .int _ => true
  | .real _ => false

/-- The numeric value of a bond order (for float bond orders this is the
inter-atomic distance used by the Wolfsberg-Helmholz path). -/
def orderVal : BondOrder → ℚ
  | .int n => (n : ℚ)
  | .real q => q

/-- The stream of site labels of a connectivity list, in order: for each
tuple, its first then its second site. -/
def labels (sys : List Bond) : List Site :=
  sys.flatMap (fun b => [b.s1, b.s2])

/-- Append a site to an accumulator unless it is already present. -/
def addNew (acc : List Site) (s : Site) : List Site :=
  if s ∈ acc then acc else acc ++ [s]

/-- Modelled from the spec: the distinct site labels of a connectivity list,
"indexed by site order of first appearance in the connectivity list": each
tuple's sites are scanned in order and appended when first seen. -/
def siteList (sys : List Bond) : List Site :=
  (labels sys).foldl addNew []

/-- Index of a site in a list of sites (first position at which it occurs). -/
def idxIn (l : List Site) (s : Site) : Nat :=
  l.findIdx (fun x => decide (x = s))

/-- Modelled from the spec: the physical data the external library keeps in
tables and formulas that the visible material does not define: Rauk's-table
per-element alpha values and per-element-pair beta values, per-element
ionization potentials, and the map deriving an orbital-overlap term from the
two atom labels, the inter-atomic distance and the optional bond-symmetry
tag. -/
structure Params where
  raukAlpha : String → ℚ
  raukBeta : String → String → ℚ
  ipTable : String → ℚ
  overlapDist : String → String → ℚ → Option String → ℚ

/-- Modelled from the spec: the `HamHub` constructor accepts a connectivity
list and keyword configuration options: an onsite-energy array `u_onsite`,
an atom-label-to-onsite-energy dictionary `atom_dictionary`, a
bond-label-pair-to-coupling dictionary `bond_dictionary`, and a
bond-label-pair-to-overlap-scalar dictionary `orbital_overlap`.  The
constructor performs no validation (in particular it does not compare the
length of `u_onsite` with the number of sites). -/
structure HamHub where
  connectivity : List Bond
  u_onsite : List ℚ := []
  atom_dictionary : Option (List (String × ℚ)) := none
  bond_dictionary : Option (List ((String × String) × ℚ)) := none
  orbital_overlap : Option (List ((String × String) × ℚ)) := none

/-- Modelled from the spec: `HamHuck` exposes the same connectivity-list
constructor and the same one-body call surface as `HamHub` (the notebook's
molecule example); its one-body matrix is built identically. -/
abbrev HamHuck := HamHub

/-- Modelled from the spec: the Rauk's-table path is taken "when the tuples
carry integer bond orders", i.e. when every tuple of the connectivity list
has an integer bond order. -/
def usesRauk (sys : List Bond) : Bool :=
  sys.all (fun b => orderIsInt b.order)

/-- The path-determined onsite (alpha) value of an atom: the precomputed
Rauk's-table value on the integer path, the negated ionization potential on
the Wolfsberg-Helmholz path. -/
def pathAlpha (P : Params) (sys : List Bond) (a : String) : ℚ :=
  if usesRauk sys then P.raukAlpha a else -(P.ipTable a)

/-- Modelled from the spec: the diagonal (alpha) value of an atom, taken
from `atom_dictionary` when it is supplied and has the atom's label,
otherwise from the table/formula path. -/
def alphaOf (P : Params) (H : HamHub) (a : String) : ℚ :=
  match H.atom_dictionary with
  | some d => (d.lookup a).getD (pathAlpha P H.connectivity a)
  | none => pathAlpha P H.connectivity a

/-- Modelled from the spec: the orbital-overlap term of a bond, "derived
from the given inter-atomic distance unless supplied directly via the
orbital_overlap dictionary". -/
def overlapOf (P : Params) (H : HamHub) (b : Bond) : ℚ :=
  let s := P.overlapDist b.s1.atom b.s2.atom (orderVal b.order) b.tag
  match H.orbital_overlap with
  | some ov => ((ov.lookup (b.s1.atom, b.s2.atom))).getD s
  | none => s

/-- Modelled from the spec: the Wolfsberg-Helmholz coupling of a bond,
`1.75 * S_XY * (alpha_X + alpha_Y) / 2` with `alpha_X` the negated
ionization potential of atom `X`. -/
def whBeta (P : Params) (H : HamHub) (b : Bond) : ℚ :=
  (7 / 4) * overlapOf P H b * ((-(P.ipTable b.s1.atom) + -(P.ipTable b.s2.atom)) / 2)

/-- The path-determined coupling (beta) value of a bond: the Rauk's-table
lookup on the integer path, the Wolfsberg-Helmholz value otherwise. -/
def betaFormula (P : Params) (H : HamHub) (b : Bond) : ℚ :=
  if usesRauk H.connectivity then P.raukBeta b.s1.atom b.s2.atom
  else whBeta P H b

/-- `true` when bond `b` joins matrix positions `i` and `j` (in either
orientation), positions taken in the first-appearance order `sites`. -/
def joins (sites : List Site) (b : Bond) (i j : Nat) : Bool :=
  (decide (idxIn sites b.s1 = i) && decide (idxIn sites b.s2 = j)) ||
  (decide (idxIn sites b.s1 = j) && decide (idxIn sites b.s2 = i))

/-- `true` when bond `b` joins position `i` to position `j` in the tuple's
own orientation (first site at `i`, second at `j`). -/
def joinsDir (sites : List Site) (b : Bond) (i j : Nat) : Bool :=
  decide (idxIn sites b.s1 = i) && decide (idxIn sites b.s2 = j)

/-- Modelled from the spec and the notebook's printed outputs: the `(i, j)`
entry of the one-body matrix.  Diagonal entries are the alpha of the site's
atom.  Off-diagonal entries: with a user-supplied `bond_dictionary`, the
dictionary value of the first tuple joining `i` to `j` in the tuple's own
orientation (the transposed position is not written, as the notebook's
fourth output cell shows); otherwise the table/formula beta of the first
tuple joining `i` and `j` in either orientation; zero when no tuple joins
`i` and `j`. -/
def entry (P : Params) (H : HamHub) (i j : Nat) : ℚ :=
  let sites := siteList H.connectivity
  if i = j then
    match sites[i]? with
    | some s => alphaOf P H s.atom
    | none => 0
  else
    match H.bond_dictionary with
    | some d =>
      match H.connectivity.find? (fun b => joinsDir sites b i j) with
      | some b => (d.lookup (b.s1.atom, b.s2.atom)).getD 0
      | none => 0
    | none =>
      match H.connectivity.find? (fun b => joins sites b i j) with
      | some b => betaFormula P H b
      | none => 0

/-- The dense one-body matrix: an `n × n` list of rows, `n` the number of
distinct sites, rows and columns in first-appearance order. -/
def denseMatrix (P : Params) (H : HamHub) : List (List ℚ) :=
  (List.range (siteList H.connectivity).length).map
    (fun i => (List.range (siteList H.connectivity).length).map
      (fun j => entry P H i j))

/-- Modelled from the spec: `generate_one_body_integral` returns a dense or
sparse representation of the one-electron integral matrix with a selectable
basis option; only the dense `"spatial basis"` output is exercised by the
visible material, so only it is modelled (other option combinations are left
unspecified, returned as `none`). -/
def generate_one_body_integral (P : Params) (H : HamHub) (dense : Bool)
    (basis : String) : Option (List (List ℚ)) :=
  if dense && (basis == "spatial basis") then some (denseMatrix P H) else none

/-- Transpose of a dense row-major matrix (entries read with `getD`). -/
def transposeM (M : List (List ℚ)) : List (List ℚ) :=
  (List.range M.length).map (fun j => M.map (fun row => row.getD j 0))

/-! ### Basic lemmas about the site list -/

theorem mem_addNew {acc : List Site} {x a : Site} :
    a ∈ addNew acc x ↔ a ∈ acc ∨ a = x := by
  unfold addNew
  by_cases h : x ∈ acc
  · rw [if_pos h]
    constructor
    · exact Or.inl
    · rintro (ha | rfl)
      · exact ha
      · exact h
  · rw [if_neg h]
    simp

theorem nodup_addNew {acc : List Site} (h : acc.Nodup) (x : Site) :
    (addNew acc x).Nodup := by
  unfold addNew
  by_cases hx : x ∈ acc
  · rwa [if_pos hx]
  · rw [if_neg hx, List.nodup_append]
    refine ⟨h, List.nodup_singleton x, ?_⟩
    intro a ha hax
    rw [List.mem_singleton] at hax
    exact hx (hax ▸ ha)

theorem mem_foldl_addNew : ∀ (l acc : List Site) (a : Site),
    a ∈ l.foldl addNew acc ↔ a ∈ acc ∨ a ∈ l
  | [], acc, a => by simp
  | x :: l, acc, a => by
    rw [List.foldl_cons, mem_foldl_addNew l (addNew acc x) a, mem_addNew, List.mem_cons]
    tauto

theorem nodup_foldl_addNew : ∀ (l acc : List Site), acc.Nodup → (l.foldl addNew acc).Nodup
  | [], _, h => h
  | x :: l, acc, h => by
    rw [List.foldl_cons]
    exact nodup_foldl_addNew l (addNew acc x) (nodup_addNew h x)

theorem mem_siteList (sys : List Bond) (a : Site) :
    a ∈ siteList sys ↔ a ∈ labels sys := by
  unfold siteList
  rw [mem_foldl_addNew]
  simp

theorem nodup_siteList (sys : List Bond) : (siteList sys).Nodup :=
  nodup_foldl_addNew (labels sys) [] List.nodup_nil

theorem length_siteList (sys : List Bond) :
    (siteList sys).length = (labels sys).toFinset.card := by
  have h2 : (siteList sys).toFinset = (labels sys).toFinset := by
    ext a
    simp [List.mem_toFinset, mem_siteList]
  rw [← h2, List.toFinset_card_of_nodup (nodup_siteList sys)]

/-! ### First-occurrence indices -/

theorem idxIn_lt_length_of_mem {l : List Site} {s : Site} (h : s ∈ l) :
    idxIn l s < l.length :=
  List.findIdx_lt_length_of_exists ⟨s, h, by simp⟩

theorem idxIn_lt_of_mem_take : ∀ (L : List Site) (k : Nat) (a : Site),
    a ∈ L.take k → idxIn L a < k
  | [], k, a, h => by simp at h
  | _ :: _, 0, a, h => by simp at h
  | x :: L, k + 1, a, h => by
    rw [List.take_succ_cons, List.mem_cons] at h
    unfold idxIn
    rw [List.findIdx_cons]
    by_cases hxa : x = a
    · simp [hxa]
    · have ha : a ∈ L.take k := by
        rcases h with h | h
        · exact absurd h.symm hxa
        · exact h
      have ih := idxIn_lt_of_mem_take L k a ha
      simp only [decide_eq_false hxa, cond_false]
      exact Nat.succ_lt_succ ih

theorem idxIn_of_not_mem_take : ∀ (L : List Site) (k : Nat) (x : Site),
    x ∉ L.take k → L[k]? = some x → idxIn L x = k
  | [], k, x, _, hk => by simp at hk
  | y :: L, 0, x, _, hk => by
    simp only [List.getElem?_cons_zero, Option.some.injEq] at hk
    subst hk
    unfold idxIn
    rw [List.findIdx_cons]
    simp
  | y :: L, k + 1, x, hmem, hk => by
    rw [List.take_succ_cons, List.mem_cons] at hmem
    push_neg at hmem
    simp only [List.getElem?_cons_succ] at hk
    unfold idxIn
    rw [List.findIdx_cons]
    have hyx : ¬(y = x) := fun h => hmem.1 h.symm
    have ih := idxIn_of_not_mem_take L k x hmem.2 hk
    simp only [decide_eq_false hyx, cond_false]
    exact congrArg (fun t => t + 1) ih

/-- Folding `addNew` over the suffix of `L` past position `k`, starting from
an accumulator holding exactly the elements of the first `k` positions,
keeps the accumulator sorted by index of first occurrence in `L`. -/
theorem pairwise_foldl_addNew (L : List Site) :
    ∀ (suf : List Site) (k : Nat) (acc : List Site),
      L.drop k = suf →
      (∀ a, a ∈ acc ↔ a ∈ L.take k) →
      acc.Pairwise (fun a b => idxIn L a < idxIn L b) →
      (suf.foldl addNew acc).Pairwise (fun a b => idxIn L a < idxIn L b)
  | [], _, acc, _, _, hpw => hpw
  | x :: rest, k, acc, hdrop, hmem, hpw => by
    have hxk : L[k]? = some x := by
      have h0 := List.getElem?_drop L k 0
      rw [hdrop] at h0
      simpa using h0.symm
    have hdrop' : L.drop (k + 1) = rest := by
      rw [← List.drop_drop 1 k L, hdrop]
      rfl
    have htake : L.take (k + 1) = L.take k ++ [x] := by
      rw [List.take_succ, hxk]
      rfl
    rw [List.foldl_cons]
    refine pairwise_foldl_addNew L rest (k + 1) (addNew acc x) hdrop' ?_ ?_
    · intro a
      rw [mem_addNew, htake, List.mem_append, List.mem_singleton, hmem a]
    · by_cases hx : x ∈ acc
      · unfold addNew
        rwa [if_pos hx]
      · have hxt : x ∉ L.take k := fun h => hx ((hmem x).2 h)
        have hidx : idxIn L x = k := idxIn_of_not_mem_take L k x hxt hxk
        unfold addNew
        rw [if_neg hx, List.pairwise_append]
        refine ⟨hpw, List.pairwise_singleton _ x, ?_⟩
        intro a ha b hb
        rw [List.mem_singleton] at hb
        subst hb
        rw [hidx]
        exact idxIn_lt_of_mem_take L k a ((hmem a).1 ha)

/-- The site list is sorted by index of first occurrence in the label
stream of the connectivity list. -/
theorem pairwise_siteList (sys : List Bond) :
    (siteList sys).Pairwise
      (fun a b => idxIn (labels sys) a < idxIn (labels sys) b) :=
  pairwise_foldl_addNew (labels sys) (labels sys) 0 [] rfl (by simp) (by simp)

/-! ### Reading entries of the dense matrix -/

theorem length_denseMatrix (P : Params) (H : HamHub) :
    (denseMatrix P H).length = (siteList H.connectivity).length := by
  unfold denseMatrix
  rw [List.length_map, List.length_range]

theorem denseMatrix_getD (P : Params) (H : HamHub) {i j : Nat}
    (hi : i < (siteList H.connectivity).length)
    (hj : j < (siteList H.connectivity).length) :
    ((denseMatrix P H).getD i []).getD j 0 = entry P H i j := by
  unfold denseMatrix
  simp only [List.getD_eq_getElem?_getD, List.getElem?_map, List.getElem?_range hi,
    List.getElem?_range hj, Option.map_some', Option.getD_some]

theorem denseMatrix_getD_of_ge (P : Params) (H : HamHub) {i j : Nat}
    (h : ¬(i < (siteList H.connectivity).length ∧
           j < (siteList H.connectivity).length)) :
    ((denseMatrix P H).getD i []).getD j 0 = 0 := by
  by_cases hi : i < (siteList H.connectivity).length
  · have hj : (siteList H.connectivity).length ≤ j := by
      rcases Nat.lt_or_ge j (siteList H.connectivity).length with hj | hj
      · exact absurd ⟨hi, hj⟩ h
      · exact hj
    unfold denseMatrix
    simp only [List.getD_eq_getElem?_getD, List.getElem?_map, List.getElem?_range hi,
      Option.map_some', Option.getD_some]
    have hlen : (List.range (siteList H.connectivity).length).length ≤ j := by
      rw [List.length_range]
      exact hj
    rw [List.getElem?_eq_none hlen]
    rfl
  · have : (denseMatrix P H).length ≤ i := by
      rw [length_denseMatrix]
      exact Nat.le_of_not_lt hi
    rw [List.getD_eq_default _ _ this]
    rfl

/-! ### Helper facts about bond search -/

theorem find?_ext {α : Type} (l : List α) (p q : α → Bool)
    (h : ∀ a, p a = q a) : l.find? p = l.find? q := by
  induction l with
  | nil => rfl
  | cons a t ih => rw [List.find?_cons, List.find?_cons, h a, ih]

theorem joins_comm (sites : List Site) (b : Bond) (i j : Nat) :
    joins sites b i j = joins sites b j i := by
  unfold joins
  rw [Bool.or_comm]

theorem joinsDir_joins {sites : List Site} {b : Bond} {i j : Nat}
    (h : joinsDir sites b i j = true) : joins sites b i j = true := by
  unfold joinsDir at h
  unfold joins
  rw [h, Bool.true_or]

theorem joins_bounds {H : HamHub} {b : Bond} {i j : Nat}
    (hb : b ∈ H.connectivity)
    (h : joins (siteList H.connectivity) b i j = true) :
    i < (siteList H.connectivity).length ∧
    j < (siteList H.connectivity).length := by
  have h1 : b.s1 ∈ siteList H.connectivity := by
    rw [mem_siteList]
    unfold labels
    rw [List.mem_flatMap]
    exact ⟨b, hb, by simp⟩
  have h2 : b.s2 ∈ siteList H.connectivity := by
    rw [mem_siteList]
    unfold labels
    rw [List.mem_flatMap]
    exact ⟨b, hb, by simp⟩
  have b1 := idxIn_lt_length_of_mem h1
  have b2 := idxIn_lt_length_of_mem h2
  unfold joins at h
  rcases Bool.or_eq_true_iff.mp h with h | h <;>
    rcases Bool.and_eq_true_iff.mp h with ⟨ha, hb'⟩ <;>
      rw [decide_eq_true_eq] at ha hb'
  · exact ⟨ha ▸ b1, hb' ▸ b2⟩
  · exact ⟨hb' ▸ b2, ha ▸ b1⟩

theorem entry_diag (P : Params) (H : HamHub) {i : Nat} {s : Site}
    (hs : (siteList H.connectivity)[i]? = some s) :
    entry P H i i = alphaOf P H s.atom := by
  unfold entry
  rw [if_pos rfl, hs]

theorem entry_offdiag_no_dict (P : Params) (H : HamHub)
    (hB : H.bond_dictionary = none) {i j : Nat} (hij : i ≠ j) :
    entry P H i j =
      (match H.connectivity.find?
          (fun b => joins (siteList H.connectivity) b i j) with
       | some b => betaFormula P H b
       | none => 0) := by
  unfold entry
  rw [if_neg hij, hB]

theorem entry_offdiag_dict (P : Params) (H : HamHub)
    {d : List ((String × String) × ℚ)} (hB : H.bond_dictionary = some d)
    {i j : Nat} (hij : i ≠ j) :
    entry P H i j =
      (match H.connectivity.find?
          (fun b => joinsDir (siteList H.connectivity) b i j) with
       | some b => (d.lookup (b.s1.atom, b.s2.atom)).getD 0
       | none => 0) := by
  unfold entry
  rw [if_neg hij, hB]

theorem usesRauk_of_int {sys : List Bond}
    (h : ∀ b ∈ sys, orderIsInt b.order = true) : usesRauk sys = true :=
  List.all_eq_true.mpr h

theorem usesRauk_false_of_float {sys : List Bond} (hne : sys ≠ [])
    (h : ∀ b ∈ sys, orderIsInt b.order = false) : usesRauk sys = false := by
  rcases sys with _ | ⟨b, rest⟩
  · exact absurd rfl hne
  · unfold usesRauk
    rw [List.all_cons, h b (List.mem_cons_self b rest), Bool.false_and]

theorem alphaOf_no_dict (P : Params) (H : HamHub)
    (hA : H.atom_dictionary = none) (a : String) :
    alphaOf P H a = pathAlpha P H.connectivity a := by
  unfold alphaOf
  rw [hA]

theorem betaFormula_rauk (P : Params) (H : HamHub)
    (hR : usesRauk H.connectivity = true) (b : Bond) :
    betaFormula P H b = P.raukBeta b.s1.atom b.s2.atom := by
  unfold betaFormula
  rw [hR]
  rfl

theorem betaFormula_wh (P : Params) (H : HamHub)
    (hR : usesRauk H.connectivity = false) (b : Bond) :
    betaFormula P H b = whBeta P H b := by
  unfold betaFormula
  rw [hR]
  rfl

theorem pathAlpha_rauk (P : Params) {sys : List Bond}
    (hR : usesRauk sys = true) (a : String) :
    pathAlpha P sys a = P.raukAlpha a := by
  unfold pathAlpha
  rw [hR]
  rfl

theorem pathAlpha_wh (P : Params) {sys : List Bond}
    (hR : usesRauk sys = false) (a : String) :
    pathAlpha P sys a = -(P.ipTable a) := by
  unfold pathAlpha
  rw [hR]
  rfl

theorem lt_length_of_getElem?_site {l : List Site} {i : Nat} {s : Site}
    (h : l[i]? = some s) : i < l.length := by
  rcases List.getElem?_eq_some.mp h with ⟨hlt, _⟩
  exact hlt

theorem entry_symm (P : Params) (H : HamHub)
    (hB : H.bond_dictionary = none) (i j : Nat) :
    entry P H i j = entry P H j i := by
  by_cases hij : i = j
  · rw [hij]
  · unfold entry
    rw [if_neg hij, if_neg (fun h => hij h.symm), hB]
    rw [find?_ext H.connectivity _ _
      (fun b => joins_comm (siteList H.connectivity) b i j)]

/-! ### Concrete instances from the notebook examples -/

/-- A concrete instance of the external tables, with per-element values
echoing the numbers of the notebook's printed outputs (used to exercise the
general theorems on concrete inputs; nothing below depends on these exact
values). -/
def Pex : Params :=
  { raukAlpha := fun a =>
      if a = "C" then -414/1000 else if a = "Cl" then -492884/1000000
      else if a = "F" then -558443/1000000
      else if a = "Si" then -414/1000 else 0,
    raukBeta := fun a b =>
      if (a, b) = ("C", "Cl") ∨ (a, b) = ("Cl", "C") then -33046/1000000
      else if (a, b) = ("Cl", "F") ∨ (a, b) = ("F", "Cl") then -27183/1000000
      else if (a, b) = ("F", "Si") ∨ (a, b) = ("Si", "F") then -9061/1000000
      else if (a, b) = ("Si", "C") ∨ (a, b) = ("C", "Si") then -39975/1000000
      else 0,
    ipTable := fun a =>
      if a = "C" then 41380839/100000000
      else if a = "Cl" then 47655051/100000000
      else if a = "F" then 64027609/100000000
      else if a = "Si" then 29956945/100000000 else 0,
    overlapDist := fun _ _ dist _ => 1 / (1 + dist) }

def siteC1 : Site := ⟨"C", 1⟩
def siteCl2 : Site := ⟨"Cl", 2⟩
def siteF3 : Site := ⟨"F", 3⟩
def siteSi4 : Site := ⟨"Si", 4⟩

/-- The four-site ring with integer bond orders (first notebook example). -/
def sysRauk : List Bond :=
  [⟨siteC1, siteCl2, .int 1, none⟩, ⟨siteCl2, siteF3, .int 1, none⟩,
   ⟨siteF3, siteSi4, .int 1, none⟩, ⟨siteSi4, siteC1, .int 1, none⟩]

/-- The four-site ring with float bond orders and pi/sigma tags (second
notebook example). -/
def sysWH : List Bond :=
  [⟨siteC1, siteCl2, .real (3/2), some "pi"⟩,
   ⟨siteCl2, siteF3, .real (9/5), some "sigma"⟩,
   ⟨siteF3, siteSi4, .real (9/5), some "sigma"⟩,
   ⟨siteSi4, siteC1, .real (17/10), some "sigma"⟩]

def HRauk : HamHub := { connectivity := sysRauk, u_onsite := [1, 1] }

def HWH : HamHub := { connectivity := sysWH, u_onsite := [1, 1] }

/-- The fourth notebook example: user atom and bond dictionaries. -/
def HDict : HamHub :=
  { connectivity := sysRauk, u_onsite := [1, 1],
    atom_dictionary := some [("C", 1), ("Cl", 2), ("F", 3), ("Si", 4)],
    bond_dictionary := some [(("C", "Cl"), 0), (("Cl", "F"), 1),
                             (("F", "Si"), 2), (("Si", "C"), 3)] }

/-- The fifth notebook example: float orders with a user orbital_overlap
dictionary. -/
def sysOv : List Bond :=
  [⟨siteC1, siteCl2, .real (11/10), none⟩, ⟨siteCl2, siteF3, .real 1, none⟩,
   ⟨siteF3, siteSi4, .real 1, none⟩, ⟨siteSi4, siteC1, .real 1, none⟩]

def HOv : HamHub :=
  { connectivity := sysOv, u_onsite := [1, 1],
    orbital_overlap := some [(("C", "Cl"), 1), (("Cl", "F"), 2),
                             (("F", "Si"), 2), (("Si", "C"), 3)] }

/-! ### Claim theorems -/

/-- C3: for every connectivity list, the output of
`generate_one_body_integral` with `dense := true` is a dense square matrix
whose dimension equals the number of distinct site labels of the list, and
whose row/column `i` corresponds to the `i`-th distinct site in order of
first appearance: the site list is duplicate-free, holds exactly the labels
occurring in the list, and is sorted by index of first occurrence in the
label stream. -/
theorem dense_matrix_square_first_appearance (P : Params) (H : HamHub)
    (M : List (List ℚ))
    (hM : generate_one_body_integral P H true "spatial basis" = some M) :
    M.length = (siteList H.connectivity).length ∧
    (∀ row ∈ M, row.length = (siteList H.connectivity).length) ∧
    (siteList H.connectivity).length = (labels H.connectivity).toFinset.card ∧
    (siteList H.connectivity).Nodup ∧
    (∀ s, s ∈ siteList H.connectivity ↔ s ∈ labels H.connectivity) ∧
    (siteList H.connectivity).Pairwise
      (fun a b =>
        idxIn (labels H.connectivity) a < idxIn (labels H.connectivity) b) := by
  have hM' : M = denseMatrix P H := by
    unfold generate_one_body_integral at hM
    simp at hM
    exact hM.symm
  subst hM'
  refine ⟨length_denseMatrix P H, ?_, length_siteList _, nodup_siteList _,
    mem_siteList _, pairwise_siteList _⟩
  intro row hrow
  unfold denseMatrix at hrow
  rw [List.mem_map] at hrow
  rcases hrow with ⟨i, _, rfl⟩
  rw [List.length_map, List.length_range]

theorem dense_matrix_square_first_appearance_witness :
    (denseMatrix Pex HRauk).length = (siteList HRauk.connectivity).length :=
  (dense_matrix_square_first_appearance Pex HRauk (denseMatrix Pex HRauk) rfl).1

/-- C5: for every pair of distinct in-range positions not joined by any
tuple of the connectivity list, the corresponding off-diagonal entry of the
returned dense matrix is zero, so nonzero couplings occur only between
bonded sites. -/
theorem unbonded_pairs_have_zero_coupling (P : Params) (H : HamHub)
    (i j : Nat) (hij : i ≠ j)
    (hi : i < (siteList H.connectivity).length)
    (hj : j < (siteList H.connectivity).length)
    (hnb : ∀ b ∈ H.connectivity, joins (siteList H.connectivity) b i j = false) :
    ((denseMatrix P H).getD i []).getD j 0 = 0 := by
  rw [denseMatrix_getD P H hi hj]
  unfold entry
  rw [if_neg hij]
  cases hB : H.bond_dictionary with
  | none =>
    have hfind : H.connectivity.find?
        (fun b => joins (siteList H.connectivity) b i j) = none :=
      List.find?_eq_none.mpr (fun x hx h => by rw [hnb x hx] at h; cases h)
    rw [hfind]
  | some d =>
    have hfind : H.connectivity.find?
        (fun b => joinsDir (siteList H.connectivity) b i j) = none :=
      List.find?_eq_none.mpr (fun x hx h => by
        have h2 := joinsDir_joins h
        rw [hnb x hx] at h2
        cases h2)
    rw [hfind]

theorem unbonded_pairs_have_zero_coupling_witness :
    ((denseMatrix Pex HRauk).getD 0 []).getD 2 0 = 0 :=
  unbonded_pairs_have_zero_coupling Pex HRauk 0 2 (by decide) (by decide)
    (by decide) (by decide)

/-- C6: under the Rauk's-table path (integer bond orders, no user atom
dictionary), the diagonal entry of each site is the Rauk's-table alpha of
the site's element, so it is determined solely by the element: sites with
equal element labels receive equal diagonal entries. -/
theorem rauk_diagonal_determined_by_element (P : Params) (H : HamHub)
    (hR : ∀ b ∈ H.connectivity, orderIsInt b.order = true)
    (hA : H.atom_dictionary = none)
    (i j : Nat) (s t : Site)
    (hs : (siteList H.connectivity)[i]? = some s)
    (ht : (siteList H.connectivity)[j]? = some t) :
    ((denseMatrix P H).getD i []).getD i 0 = P.raukAlpha s.atom ∧
    (s.atom = t.atom →
      ((denseMatrix P H).getD i []).getD i 0 =
        ((denseMatrix P H).getD j []).getD j 0) := by
  have hi := lt_length_of_getElem?_site hs
  have hj := lt_length_of_getElem?_site ht
  have hRa := usesRauk_of_int hR
  have e1 : ((denseMatrix P H).getD i []).getD i 0 = P.raukAlpha s.atom := by
    rw [denseMatrix_getD P H hi hi, entry_diag P H hs, alphaOf_no_dict P H hA,
      pathAlpha_rauk P hRa]
  refine ⟨e1, fun hat => ?_⟩
  rw [e1, denseMatrix_getD P H hj hj, entry_diag P H ht, alphaOf_no_dict P H hA,
    pathAlpha_rauk P hRa, hat]

theorem rauk_diagonal_determined_by_element_witness :
    ((denseMatrix Pex HRauk).getD 0 []).getD 0 0 = Pex.raukAlpha "C" :=
  (rauk_diagonal_determined_by_element Pex HRauk (by decide) rfl 0 0
    siteC1 siteC1 (by decide) (by decide)).1

/-- C8: without a user-supplied bond_dictionary (alphas and betas from the
Rauk's-table or Wolfsberg-Helmholz path), the dense matrix is symmetric:
entry (i, j) equals entry (j, i) for all i, j. -/
theorem one_body_matrix_symmetric (P : Params) (H : HamHub)
    (hB : H.bond_dictionary = none) (i j : Nat) :
    ((denseMatrix P H).getD i []).getD j 0 =
      ((denseMatrix P H).getD j []).getD i 0 := by
  by_cases hi : i < (siteList H.connectivity).length
  · by_cases hj : j < (siteList H.connectivity).length
    · rw [denseMatrix_getD P H hi hj, denseMatrix_getD P H hj hi,
        entry_symm P H hB]
    · rw [denseMatrix_getD_of_ge P H (fun h => hj h.2),
        denseMatrix_getD_of_ge P H (fun h => hj h.1)]
  · rw [denseMatrix_getD_of_ge P H (fun h => hi h.1),
      denseMatrix_getD_of_ge P H (fun h => hi h.2)]

theorem one_body_matrix_symmetric_witness :
    ((denseMatrix Pex HWH).getD 0 []).getD 1 0 =
      ((denseMatrix Pex HWH).getD 1 []).getD 0 0 :=
  one_body_matrix_symmetric Pex HWH rfl 0 1

/-- C1: with no user dictionaries, when every tuple carries an integer bond
order the one-electron matrix is computed from the Rauk's-table lookup
(diagonal from the per-element alpha table, couplings from the
per-element-pair beta table), and when every tuple carries a real (float)
bond order it is computed from the Wolfsberg-Helmholz approximation
(diagonal the negated ionization potential, couplings the
Wolfsberg-Helmholz beta of the joining tuple). -/
theorem integer_orders_use_rauk_float_orders_use_wh (P : Params) (H : HamHub)
    (hA : H.atom_dictionary = none) (hB : H.bond_dictionary = none) :
    ((∀ b ∈ H.connectivity, orderIsInt b.order = true) →
      (∀ i s, (siteList H.connectivity)[i]? = some s →
        ((denseMatrix P H).getD i []).getD i 0 = P.raukAlpha s.atom) ∧
      (∀ i j b, i ≠ j →
        H.connectivity.find?
          (fun x => joins (siteList H.connectivity) x i j) = some b →
        ((denseMatrix P H).getD i []).getD j 0 =
          P.raukBeta b.s1.atom b.s2.atom)) ∧
    (H.connectivity ≠ [] → (∀ b ∈ H.connectivity, orderIsInt b.order = false) →
      (∀ i s, (siteList H.connectivity)[i]? = some s →
        ((denseMatrix P H).getD i []).getD i 0 = -(P.ipTable s.atom)) ∧
      (∀ i j b, i ≠ j →
        H.connectivity.find?
          (fun x => joins (siteList H.connectivity) x i j) = some b →
        ((denseMatrix P H).getD i []).getD j 0 = whBeta P H b)) := by
  constructor
  · intro hint
    have hRa := usesRauk_of_int hint
    constructor
    · intro i s hs
      have hi := lt_length_of_getElem?_site hs
      rw [denseMatrix_getD P H hi hi, entry_diag P H hs,
        alphaOf_no_dict P H hA, pathAlpha_rauk P hRa]
    · intro i j b hij hfind
      have hb := List.mem_of_find?_eq_some hfind
      have hjt : joins (siteList H.connectivity) b i j = true := by
        have h' := List.find?_some hfind
        exact h'
      rcases joins_bounds hb hjt with ⟨hi, hj⟩
      rw [denseMatrix_getD P H hi hj, entry_offdiag_no_dict P H hB hij]
      simp only [hfind]
      exact betaFormula_rauk P H hRa b
  · intro hne hfloat
    have hRa := usesRauk_false_of_float hne hfloat
    constructor
    · intro i s hs
      have hi := lt_length_of_getElem?_site hs
      rw [denseMatrix_getD P H hi hi, entry_diag P H hs,
        alphaOf_no_dict P H hA, pathAlpha_wh P hRa]
    · intro i j b hij hfind
      have hb := List.mem_of_find?_eq_some hfind
      have hjt : joins (siteList H.connectivity) b i j = true := by
        have h' := List.find?_some hfind
        exact h'
      rcases joins_bounds hb hjt with ⟨hi, hj⟩
      rw [denseMatrix_getD P H hi hj, entry_offdiag_no_dict P H hB hij]
      simp only [hfind]
      exact betaFormula_wh P H hRa b

theorem integer_orders_use_rauk_float_orders_use_wh_witness :
    ((denseMatrix Pex HRauk).getD 0 []).getD 1 0 = Pex.raukBeta "C" "Cl" ∧
    ((denseMatrix Pex HWH).getD 0 []).getD 1 0 =
      whBeta Pex HWH ⟨siteC1, siteCl2, .real (3/2), some "pi"⟩ :=
  ⟨((integer_orders_use_rauk_float_orders_use_wh Pex HRauk rfl rfl).1
      (by decide)).2 0 1 ⟨siteC1, siteCl2, .int 1, none⟩ (by decide) rfl,
   ((integer_orders_use_rauk_float_orders_use_wh Pex HWH rfl rfl).2
      (by decide) (by decide)).2 0 1 ⟨siteC1, siteCl2, .real (3/2), some "pi"⟩
      (by decide) rfl⟩

/-- C4: the constructor accepts `u_onsite`, `atom_dictionary`,
`bond_dictionary` and `orbital_overlap`; when atom and bond dictionaries are
supplied, each site's diagonal entry is the dictionary value of its atom
label and each bonded pair's coupling entry (at the joining tuple's
position) is the dictionary value of that bond-label pair, overriding the
table/formula values (the conclusion holds for every choice of the
table/formula parameters `P`). -/
theorem user_dictionaries_override (P : Params) (H : HamHub)
    (ad : List (String × ℚ)) (bd : List ((String × String) × ℚ))
    (hA : H.atom_dictionary = some ad) (hB : H.bond_dictionary = some bd) :
    (∀ i s v, (siteList H.connectivity)[i]? = some s →
      ad.lookup s.atom = some v →
      ((denseMatrix P H).getD i []).getD i 0 = v) ∧
    (∀ i j b v, i ≠ j →
      H.connectivity.find?
        (fun x => joinsDir (siteList H.connectivity) x i j) = some b →
      bd.lookup (b.s1.atom, b.s2.atom) = some v →
      ((denseMatrix P H).getD i []).getD j 0 = v) := by
  constructor
  · intro i s v hs hv
    have hi := lt_length_of_getElem?_site hs
    rw [denseMatrix_getD P H hi hi, entry_diag P H hs]
    unfold alphaOf
    rw [hA]
    simp only [hv]
    rfl
  · intro i j b v hij hfind hv
    have hb := List.mem_of_find?_eq_some hfind
    have hjt : joinsDir (siteList H.connectivity) b i j = true := by
      have h' := List.find?_some hfind
      exact h'
    rcases joins_bounds hb (joinsDir_joins hjt) with ⟨hi, hj⟩
    rw [denseMatrix_getD P H hi hj, entry_offdiag_dict P H hB hij]
    simp only [hfind, hv]
    rfl

theorem user_dictionaries_override_witness :
    ((denseMatrix Pex HDict).getD 1 []).getD 1 0 = 2 ∧
    ((denseMatrix Pex HDict).getD 1 []).getD 2 0 = 1 :=
  ⟨(user_dictionaries_override Pex HDict _ _ rfl rfl).1 1 siteCl2 2
      (by decide) (by decide),
   (user_dictionaries_override Pex HDict _ _ rfl rfl).2 1 2
      ⟨siteCl2, siteF3, .int 1, none⟩ 1 (by decide) (by decide) (by decide)⟩

/-- C7: under the Wolfsberg-Helmholz path (every tuple a float bond order,
no user atom/bond dictionaries), each site's diagonal alpha is the negated
ionization potential of its atom, each bonded pair's coupling is 1.75 times
the orbital-overlap term times the mean of the two alphas, and the overlap
term is derived from the inter-atomic distance (the bond order value)
unless the orbital_overlap dictionary supplies it directly. -/
theorem wh_alpha_ip_beta_overlap (P : Params) (H : HamHub)
    (hne : H.connectivity ≠ [])
    (hfloat : ∀ b ∈ H.connectivity, orderIsInt b.order = false)
    (hA : H.atom_dictionary = none) (hB : H.bond_dictionary = none) :
    (∀ i s, (siteList H.connectivity)[i]? = some s →
      ((denseMatrix P H).getD i []).getD i 0 = -(P.ipTable s.atom)) ∧
    (∀ i j b, i ≠ j →
      H.connectivity.find?
        (fun x => joins (siteList H.connectivity) x i j) = some b →
      ((denseMatrix P H).getD i []).getD j 0 =
        (7 / 4) * overlapOf P H b *
          ((-(P.ipTable b.s1.atom) + -(P.ipTable b.s2.atom)) / 2)) ∧
    (H.orbital_overlap = none → ∀ b : Bond,
      overlapOf P H b =
        P.overlapDist b.s1.atom b.s2.atom (orderVal b.order) b.tag) ∧
    (∀ ov b v, H.orbital_overlap = some ov →
      ov.lookup (b.s1.atom, b.s2.atom) = some v → overlapOf P H b = v) := by
  have hRa := usesRauk_false_of_float hne hfloat
  refine ⟨?_, ?_, ?_, ?_⟩
  · intro i s hs
    have hi := lt_length_of_getElem?_site hs
    rw [denseMatrix_getD P H hi hi, entry_diag P H hs,
      alphaOf_no_dict P H hA, pathAlpha_wh P hRa]
  · intro i j b hij hfind
    have hb := List.mem_of_find?_eq_some hfind
    have hjt : joins (siteList H.connectivity) b i j = true := by
      have h' := List.find?_some hfind
      exact h'
    rcases joins_bounds hb hjt with ⟨hi, hj⟩
    rw [denseMatrix_getD P H hi hj, entry_offdiag_no_dict P H hB hij]
    simp only [hfind]
    exact betaFormula_wh P H hRa b
  · intro hov b
    unfold overlapOf
    rw [hov]
  · intro ov b v hov hv
    unfold overlapOf
    rw [hov]
    simp only [hv]
    rfl

theorem wh_alpha_ip_beta_overlap_witness :
    ((denseMatrix Pex HOv).getD 0 []).getD 0 0 = -(Pex.ipTable "C") ∧
    overlapOf Pex HOv ⟨siteC1, siteCl2, .real (11/10), none⟩ = 1 :=
  ⟨(wh_alpha_ip_beta_overlap Pex HOv (by decide) (by decide) rfl rfl).1 0
      siteC1 (by decide),
   (wh_alpha_ip_beta_overlap Pex HOv (by decide) (by decide) rfl rfl).2.2.2
      [(("C", "Cl"), 1), (("Cl", "F"), 2), (("F", "Si"), 2), (("Si", "C"), 3)]
      ⟨siteC1, siteCl2, .real (11/10), none⟩ 1 rfl (by decide)⟩

/-- C9: with a user-supplied bond_dictionary, a bond's coupling is written
only at the position of the tuple's own orientation: any distinct in-range
pair not directionally joined by a tuple reads zero, and on the notebook's
fourth example the resulting dense matrix differs from its transpose. -/
theorem bond_dictionary_writes_one_position (P : Params) (H : HamHub)
    (bd : List ((String × String) × ℚ)) (hB : H.bond_dictionary = some bd) :
    (∀ i j, i ≠ j →
      i < (siteList H.connectivity).length →
      j < (siteList H.connectivity).length →
      H.connectivity.find?
        (fun x => joinsDir (siteList H.connectivity) x i j) = none →
      ((denseMatrix P H).getD i []).getD j 0 = 0) ∧
    denseMatrix Pex HDict ≠ transposeM (denseMatrix Pex HDict) := by
  constructor
  · intro i j hij hi hj hfind
    rw [denseMatrix_getD P H hi hj, entry_offdiag_dict P H hB hij]
    simp only [hfind]
  · decide

theorem bond_dictionary_writes_one_position_witness :
    ((denseMatrix Pex HDict).getD 2 []).getD 1 0 = 0 ∧
    denseMatrix Pex HDict ≠ transposeM (denseMatrix Pex HDict) :=
  ⟨(bond_dictionary_writes_one_position Pex HDict _ rfl).1 2 1 (by decide)
      (by decide) (by decide) (by decide),
   (bond_dictionary_writes_one_position Pex HDict _ rfl).2⟩

/-- C10: the one-electron integral matrix does not depend on the `u_onsite`
array: for every connectivity list, dictionaries and any two `u_onsite`
arrays, `generate_one_body_integral` returns equal matrices; and the
constructor accepts a `u_onsite` array whose length (2) differs from the
number of sites (4) of the first notebook example, still returning a
matrix. -/
theorem one_body_ignores_u_onsite (P : Params) (sys : List Bond)
    (u1 u2 : List ℚ) (ad : Option (List (String × ℚ)))
    (bd ov : Option (List ((String × String) × ℚ))) :
    generate_one_body_integral P ⟨sys, u1, ad, bd, ov⟩ true "spatial basis" =
      generate_one_body_integral P ⟨sys, u2, ad, bd, ov⟩ true "spatial basis" ∧
    HRauk.u_onsite.length = 2 ∧
    (siteList HRauk.connectivity).length = 4 ∧
    generate_one_body_integral P HRauk true "spatial basis" =
      some (denseMatrix P HRauk) :=
  ⟨rfl, rfl, by decide, rfl⟩

end Moha
